import Mathlib

/-!
Verification of the AMM pricing/quoting kernels of this repository.

The development shallowly embeds the numeric kernels:
* `src/lib/pump-amm/src/math.rs` — fee-layered constant-product quoter over
  `U256` (the `uint` crate's 256-bit unsigned integers, whose `+`, `-`, `*`
  panic on overflow/underflow and whose `/`, `%` panic on a zero divisor).
  `U256` values are modelled as `ℕ` together with explicit guards against
  `2^256`; a Rust panic is modelled as the value-level outcome
  `PumpErr.abort`, a returned `Err(ProgramError::Custom(1))` as
  `PumpErr.custom1`.
* `src/lib/math/src/math.rs` and `src/lib/meteora-dlmm/src/math.rs` — the two
  Q64.64 fixed-point binary-exponentiation routines (`pow`) and the
  bin-to-price conversion `get_price_from_id`, modelled over `ℕ`/`ℤ` with
  `Option` for the source's `Option`/`anyhow::Result` failures.

The only floating-point arithmetic in the embedded code is the slippage
factor `((1.0 ± slippage/100.0) * PRECISION as f64).round() as u64`.  It is
modelled in exact rational arithmetic with a saturating cast to `u64`; at
every slippage value appearing in a concrete theorem below (`0`, `1`, `100`)
the `f64` evaluation is exact, so the model agrees with the source there.
-/

namespace PumpAmm

/-- One more than the largest `U256` value; the `uint` crate panics when a
`+`, `-` or `*` result does not fit below this bound. -/
def U256MOD : ℕ := 2 ^ 256

/-- `PRECISION` from `src/lib/pump-amm/src/math.rs` line 4. -/
def PRECISION : ℕ := 1000000000

/-- Outcome of a pump-amm quoting call: `custom1` is the returned
`ProgramError::Custom(1)`; `abort` models a Rust panic raised by `U256`
arithmetic (overflow, underflow or division by zero). -/
inductive PumpErr where
  | custom1 : PumpErr
  | abort : PumpErr
deriving DecidableEq, Repr

/-- Saturating cast of an integer to `u64`, the behaviour of Rust's
`as u64` on an `f64` value. -/
def u64sat (i : ℤ) : ℕ := min i.toNat (2 ^ 64 - 1)

/-- The buy-side slippage factor `((1.0 + slippage / 100.0) * PRECISION as
f64).round() as u64`, in exact rational arithmetic. -/
def buySlippageFactor (s : ℚ) : ℕ :=
  u64sat (round ((1 + s / 100) * (PRECISION : ℚ)))

/-- The sell-side slippage factor `((1.0 - slippage / 100.0) * PRECISION as
f64).round() as u64`, in exact rational arithmetic. -/
def sellSlippageFactor (s : ℚ) : ℕ :=
  u64sat (round ((1 - s / 100) * (PRECISION : ℚ)))

/-- `fee` from `src/lib/pump-amm/src/math.rs` lines 15–18:
`amount * fee_bps / 10_000` (the overflow guard of the `U256` product is
placed at each call site). -/
def feeAmt (amount bps : ℕ) : ℕ := amount * bps / 10000

/-- The value computed by `ceil_div` (`src/lib/pump-amm/src/math.rs` lines
220–227): `numerator / denominator`, plus one when the division has a
remainder. -/
def ceilN (n d : ℕ) : ℕ := n / d + (if n % d = 0 then 0 else 1)

/-- Result struct of `buy_base_input_internal`. -/
structure BuyBaseInputResult where
  internal_quote_amount : ℕ
  ui_quote : ℕ
  max_quote : ℕ
deriving DecidableEq, Repr

/-- Result struct of `sell_base_input_internal`. -/
structure SellBaseInputResult where
  ui_quote : ℕ
  min_quote : ℕ
  internal_quote_amount_out : ℕ
deriving DecidableEq, Repr

/-- Result struct of `sell_quote_input_internal`. -/
structure SellQuoteInputResult where
  base : ℕ
  internal_raw_quote : ℕ
  min_quote : ℕ
deriving DecidableEq, Repr

/-- Decidable equality of call outcomes, so that concrete runs of the
embedded quoters can be checked by `decide`. -/
instance exceptDecEq {e a : Type} [DecidableEq e] [DecidableEq a] :
    DecidableEq (Except e a)
  | .error x, .error y =>
      if h : x = y then .isTrue (by rw [h])
      else .isFalse (fun hc => h (Except.error.inj hc))
  | .error _, .ok _ => .isFalse (fun hc => Except.noConfusion hc)
  | .ok _, .error _ => .isFalse (fun hc => Except.noConfusion hc)
  | .ok x, .ok y =>
      if h : x = y then .isTrue (by rw [h])
      else .isFalse (fun hc => h (Except.ok.inj hc))

/-- The summed per-tier fee of a sell-base quote (each tier floor-divided
individually, the creator tier waived for the default creator), used to
state the result of `sell_base_input_internal` compactly. -/
def totalFee3 (q lp pr cc creator : ℕ) : ℕ :=
  feeAmt q lp + feeAmt q pr + (if creator = 0 then 0 else feeAmt q cc)

/-- The summed fee basis points with the creator tier waived for the default
creator, as computed by `sell_quote_input_internal`. -/
def totalBps (lp pr cc creator : ℕ) : ℕ :=
  lp + pr + (if creator = 0 then 0 else cc)

/-- `buy_base_input_internal` from `src/lib/pump-amm/src/math.rs` lines
21–70.  The coin creator `Pubkey` is modelled as a `ℕ`, with `0` standing
for `Pubkey::default()`.  Guards against `U256MOD` mark the places where the
source's `U256` arithmetic would panic, in source order. -/
def buy_base_input_internal (base : ℕ) (slippage : ℚ)
    (base_reserve quote_reserve lp_fee_bps protocol_fee_bps
      coin_creator_fee_bps coin_creator : ℕ) :
    Except PumpErr BuyBaseInputResult :=
  if base_reserve = 0 ∨ quote_reserve = 0 then .error .custom1
  else if base_reserve < base then .error .custom1
  else if U256MOD ≤ quote_reserve * base then .error .abort
  else if base_reserve - base = 0 then .error .custom1
  else
    let quote_amount_in := ceilN (quote_reserve * base) (base_reserve - base)
    if U256MOD ≤ quote_amount_in then .error .abort
    else if U256MOD ≤ quote_amount_in * lp_fee_bps then .error .abort
    else if U256MOD ≤ quote_amount_in * protocol_fee_bps then .error .abort
    else if coin_creator ≠ 0 ∧ U256MOD ≤ quote_amount_in * coin_creator_fee_bps then
      .error .abort
    else
      let lp_fee := feeAmt quote_amount_in lp_fee_bps
      let protocol_fee := feeAmt quote_amount_in protocol_fee_bps
      let coin_creator_fee :=
        if coin_creator = 0 then 0 else feeAmt quote_amount_in coin_creator_fee_bps
      if U256MOD ≤ quote_amount_in + lp_fee + protocol_fee + coin_creator_fee then
        .error .abort
      else
        let total_quote := quote_amount_in + lp_fee + protocol_fee + coin_creator_fee
        if U256MOD ≤ total_quote * buySlippageFactor slippage then .error .abort
        else
          .ok { internal_quote_amount := quote_amount_in
                ui_quote := total_quote
                max_quote := total_quote * buySlippageFactor slippage / PRECISION }

/-- `sell_quote_input_internal` from `src/lib/pump-amm/src/math.rs` lines
122–170 (`baseInForExactQuoteOut` in the specification). -/
def sell_quote_input_internal (quote : ℕ) (slippage : ℚ)
    (base_reserve quote_reserve lp_fee_bps protocol_fee_bps
      coin_creator_fee_bps coin_creator : ℕ) :
    Except PumpErr SellQuoteInputResult :=
  if base_reserve = 0 ∨ quote_reserve = 0 then .error .custom1
  else if quote_reserve < quote then .error .custom1
  else
    let cc_bps := if coin_creator = 0 then 0 else coin_creator_fee_bps
    if U256MOD ≤ lp_fee_bps + protocol_fee_bps then .error .abort
    else if U256MOD ≤ lp_fee_bps + protocol_fee_bps + cc_bps then .error .abort
    else
      let total_fee_bps := lp_fee_bps + protocol_fee_bps + cc_bps
      if 10000 < total_fee_bps then .error .abort
      else if U256MOD ≤ quote * 10000 then .error .abort
      else if 10000 - total_fee_bps = 0 then .error .abort
      else
        let raw_quote := ceilN (quote * 10000) (10000 - total_fee_bps)
        if U256MOD ≤ raw_quote then .error .abort
        else if quote_reserve ≤ raw_quote then .error .custom1
        else if U256MOD ≤ base_reserve * raw_quote then .error .abort
        else
          let base_amount_in := ceilN (base_reserve * raw_quote) (quote_reserve - raw_quote)
          if U256MOD ≤ base_amount_in then .error .abort
          else if U256MOD ≤ quote * sellSlippageFactor slippage then .error .abort
          else
            .ok { base := base_amount_in
                  internal_raw_quote := raw_quote
                  min_quote := quote * sellSlippageFactor slippage / PRECISION }

/-- `sell_base_input_internal` from `src/lib/pump-amm/src/math.rs` lines
172–217 (`quoteOutForExactBaseIn` in the specification). -/
def sell_base_input_internal (base : ℕ) (slippage : ℚ)
    (base_reserve quote_reserve lp_fee_bps protocol_fee_bps
      coin_creator_fee_bps coin_creator : ℕ) :
    Except PumpErr SellBaseInputResult :=
  if base_reserve = 0 ∨ quote_reserve = 0 then .error .custom1
  else if U256MOD ≤ quote_reserve * base then .error .abort
  else if U256MOD ≤ base_reserve + base then .error .abort
  else
    let quote_amount_out := quote_reserve * base / (base_reserve + base)
    if U256MOD ≤ quote_amount_out * lp_fee_bps then .error .abort
    else if U256MOD ≤ quote_amount_out * protocol_fee_bps then .error .abort
    else if coin_creator ≠ 0 ∧ U256MOD ≤ quote_amount_out * coin_creator_fee_bps then
      .error .abort
    else
      let lp_fee := feeAmt quote_amount_out lp_fee_bps
      let protocol_fee := feeAmt quote_amount_out protocol_fee_bps
      let coin_creator_fee :=
        if coin_creator = 0 then 0 else feeAmt quote_amount_out coin_creator_fee_bps
      if U256MOD ≤ lp_fee + protocol_fee then .error .abort
      else if U256MOD ≤ lp_fee + protocol_fee + coin_creator_fee then .error .abort
      else
        let total_fee := lp_fee + protocol_fee + coin_creator_fee
        if quote_amount_out < total_fee then .error .custom1
        else
          let final_quote := quote_amount_out - total_fee
          if U256MOD ≤ final_quote * sellSlippageFactor slippage then .error .abort
          else
            .ok { ui_quote := final_quote
                  min_quote := final_quote * sellSlippageFactor slippage / PRECISION
                  internal_quote_amount_out := quote_amount_out }

end PumpAmm

namespace FixedPow

/-- `ONE = 1u128 << 64`, the Q64.64 representation of `1.0`. -/
def ONE : ℕ := 2 ^ 64

/-- `u128::MAX`, used by both `pow` routines as the numerator of the
fixed-point reciprocal `floor(u128::MAX / x)`. -/
def U128MAX : ℕ := 2 ^ 128 - 1

/-- The square-and-multiply loop shared by both `pow` routines, as a total
function: at each step, if the low bit of the remaining exponent is set,
`result = result * squared_base >> 64`; then `squared_base` is squared and
shifted, and the exponent moves one bit down.  The source files unroll this
over the fixed bits 0‥18 with bit masks `exp & (1 << k)`; for `exp < 2^fuel`
the two presentations compute the same result. -/
def powFold : ℕ → ℕ → ℕ → ℕ → ℕ
  | 0, _, _, r => r
  | n + 1, e, sb, r =>
      powFold n (e / 2) (sb * sb / 2 ^ 64) (if e % 2 = 1 then r * sb / 2 ^ 64 else r)

/-- The loop of `pow` in `src/lib/math/src/math.rs` lines 46–58 with its
overflow-checked multiplications (`checked_mul` returns `None` at `2^128`):
each of the 19 unrolled steps multiplies into the result when the bit is
set and then squares the base, including after the last bit. -/
def mathLoop : ℕ → ℕ → ℕ → ℕ → Option ℕ
  | 0, _, _, r => some r
  | n + 1, e, sb, r =>
      let step : Option ℕ :=
        if e % 2 = 1 then
          if r * sb < 2 ^ 128 then some (r * sb / 2 ^ 64) else none
        else some r
      match step with
      | none => none
      | some r1 =>
          if sb * sb < 2 ^ 128 then
            mathLoop n (e / 2) (sb * sb / 2 ^ 64) r1
          else none

/-- The loop of `pow` in `src/lib/meteora-dlmm/src/math.rs` lines 186–287:
19 bit tests with a checked squaring between consecutive tests (18
squarings; none after the final bit test). -/
def dlmmLoop : ℕ → ℕ → ℕ → ℕ → Option ℕ
  | 0, _, _, r => some r
  | 1, e, sb, r =>
      if e % 2 = 1 then
        if r * sb < 2 ^ 128 then some (r * sb / 2 ^ 64) else none
      else some r
  | n + 2, e, sb, r =>
      let step : Option ℕ :=
        if e % 2 = 1 then
          if r * sb < 2 ^ 128 then some (r * sb / 2 ^ 64) else none
        else some r
      match step with
      | none => none
      | some r1 =>
          if sb * sb < 2 ^ 128 then
            dlmmLoop (n + 1) (e / 2) (sb * sb / 2 ^ 64) r1
          else none

/-- `pow` from `src/lib/math/src/math.rs` lines 6–71.  `base : ℕ` models the
`u128` argument, `e : ℤ` the `i32` exponent (theorems restrict it to the
`i32` range).  The source's `exp == i32::MIN` guard appears explicitly; its
`MAX_EXPONENTIAL` is 19. -/
def mathPow (base : ℕ) (e : ℤ) : Option ℕ :=
  if e = 0 then some ONE
  else if e = -(2 ^ 31) then none
  else if 19 ≤ e.natAbs then none
  else
    let invert : Bool := decide (e < 0)
    let sb := if ONE ≤ base then U128MAX / base else base
    let invert2 : Bool := if ONE ≤ base then !invert else invert
    match mathLoop 19 e.natAbs sb ONE with
    | none => none
    | some r =>
        if r = 0 then none
        else if invert2 then some (U128MAX / r) else some r

/-- `pow` from `src/lib/meteora-dlmm/src/math.rs` lines 138–299.  Its
`MAX_EXPONENTIAL` is `0x80000 = 524288`, and it has no `i32::MIN` guard: in
release builds `exp.abs() as u32` wraps `i32::MIN` to `2^31`, which is
exactly `Int.natAbs` on the modelled range, so `e.natAbs` is the faithful
translation for every `i32` input. -/
def dlmmPow (base : ℕ) (e : ℤ) : Option ℕ :=
  if e = 0 then some ONE
  else if 524288 ≤ e.natAbs then none
  else
    let invert : Bool := decide (e < 0)
    let sb := if ONE ≤ base then U128MAX / base else base
    let invert2 : Bool := if ONE ≤ base then !invert else invert
    match dlmmLoop 19 e.natAbs sb ONE with
    | none => none
    | some r =>
        if r = 0 then none
        else if invert2 then some (U128MAX / r) else some r

/-- `get_price_from_id` from `src/lib/meteora-dlmm/src/math.rs` lines
301–311.  `bin_step` models the `u16` argument (theorems restrict it below
`2^16`).  `checked_shl(64)` on `u128` only checks the shift amount, so the
shifted value is reduced modulo `2^128`; `checked_add` failing and a `pow`
failure both surface as the function's `anyhow` error, modelled as `none`. -/
def get_price_from_id (active_id : ℤ) (bin_step : ℕ) : Option ℕ :=
  let bps := bin_step * 2 ^ 64 % 2 ^ 128 / 10000
  if 2 ^ 128 ≤ ONE + bps then none
  else dlmmPow (ONE + bps) active_id

/-- The value produced by `get_price_from_id` for a bin id `b` once the
normalised loop base `x = u128::MAX / (ONE + bps)` is fixed: `ONE` at bin 0,
the raw loop result for negative ids (the sign inversion and the base
normalisation cancel), and the final reciprocal of the loop result for
positive ids. -/
def priceVal (x : ℕ) (b : ℤ) : ℕ :=
  if b = 0 then ONE
  else if b < 0 then powFold 19 b.natAbs x (2 ^ 64)
  else U128MAX / powFold 19 b.natAbs x (2 ^ 64)

end FixedPow

namespace PumpAmm

theorem u64sat_le (i : ℤ) : u64sat i ≤ 2 ^ 64 - 1 := min_le_right _ _

theorem feeAmt_le (a bps : ℕ) (h : bps ≤ 10000) : feeAmt a bps ≤ a := by
  unfold feeAmt
  calc a * bps / 10000 ≤ a * 10000 / 10000 :=
        Nat.div_le_div_right (Nat.mul_le_mul_left a h)
    _ = a := Nat.mul_div_cancel a (by norm_num)

theorem ceilN_le_div_succ (n d : ℕ) : ceilN n d ≤ n / d + 1 := by
  unfold ceilN; split <;> omega

theorem ceilN_le (n d : ℕ) : ceilN n d ≤ n + 1 := by
  have h := ceilN_le_div_succ n d
  have := Nat.div_le_self n d
  omega

theorem div_le_ceilN (n d : ℕ) : n / d ≤ ceilN n d := by
  unfold ceilN; omega

theorem le_ceilN_of_mul_le (x n d : ℕ) (hd : 0 < d) (h : x * d ≤ n) :
    x ≤ ceilN n d :=
  le_trans ((Nat.le_div_iff_mul_le hd).2 h) (div_le_ceilN n d)

/-- The value computed by the source's `ceil_div` is the usual ceiling
division `(n + d - 1) / d`. -/
theorem ceilN_eq_ceil_div (n d : ℕ) (hd : 0 < d) : ceilN n d = (n + d - 1) / d := by
  have hlt := Nat.mod_lt n hd
  rcases Nat.eq_zero_or_pos (n % d) with h0 | hpos
  · obtain ⟨k, rfl⟩ : d ∣ n := Nat.dvd_of_mod_eq_zero h0
    unfold ceilN
    rw [if_pos (Nat.mul_mod_right d k), Nat.mul_div_cancel_left k hd]
    have he : d * k + d - 1 = d * k + (d - 1) := by omega
    rw [he, Nat.mul_add_div hd, Nat.div_eq_of_lt (by omega)]
  · unfold ceilN
    rw [if_neg (by omega)]
    have he : n + d - 1 = d * (n / d) + (n % d + d - 1) := by
      have := Nat.div_add_mod n d
      omega
    rw [he, Nat.mul_add_div hd]
    have h1 : (n % d + d - 1) / d = 1 := by
      apply Nat.div_eq_of_lt_le (by omega) (by omega)
    omega

/-- At slippage 0 the sell-side factor is exactly `PRECISION` (the `f64`
computation is exact there). -/
theorem sellSlippageFactor_0 : sellSlippageFactor 0 = PRECISION := by
  unfold sellSlippageFactor u64sat PRECISION
  norm_num
  rfl

/-- Inversion of a successful `sell_base_input_internal` call: the reserves
are nonzero, the summed per-tier fee does not exceed the gross quote out,
and the result record carries exactly the gross quote out, the net quote and
the slippage-scaled minimum. -/
theorem sell_base_inv (base : ℕ) (s : ℚ) (br qr lp pr cc creator : ℕ)
    (r : SellBaseInputResult)
    (h : sell_base_input_internal base s br qr lp pr cc creator = .ok r) :
    br ≠ 0 ∧ qr ≠ 0 ∧
    totalFee3 (qr * base / (br + base)) lp pr cc creator ≤ qr * base / (br + base) ∧
    r = { ui_quote := qr * base / (br + base) -
            totalFee3 (qr * base / (br + base)) lp pr cc creator
          min_quote := (qr * base / (br + base) -
            totalFee3 (qr * base / (br + base)) lp pr cc creator) *
              sellSlippageFactor s / PRECISION
          internal_quote_amount_out := qr * base / (br + base) } := by
  unfold sell_base_input_internal at h
  dsimp only at h
  unfold totalFee3
  generalize hsf : sellSlippageFactor s = sf at h ⊢
  generalize hq : qr * base / (br + base) = q at h ⊢
  generalize hf1 : feeAmt q lp = f1 at h ⊢
  generalize hf2 : feeAmt q pr = f2 at h ⊢
  generalize hf3 : (if creator = 0 then (0 : ℕ) else feeAmt q cc) = f3 at h ⊢
  by_cases g1 : br = 0 ∨ qr = 0
  · rw [if_pos g1] at h; exact Except.noConfusion h
  rw [if_neg g1] at h
  by_cases g2 : U256MOD ≤ qr * base
  · rw [if_pos g2] at h; exact Except.noConfusion h
  rw [if_neg g2] at h
  by_cases g3 : U256MOD ≤ br + base
  · rw [if_pos g3] at h; exact Except.noConfusion h
  rw [if_neg g3] at h
  by_cases g4 : U256MOD ≤ q * lp
  · rw [if_pos g4] at h; exact Except.noConfusion h
  rw [if_neg g4] at h
  by_cases g5 : U256MOD ≤ q * pr
  · rw [if_pos g5] at h; exact Except.noConfusion h
  rw [if_neg g5] at h
  by_cases g6 : creator ≠ 0 ∧ U256MOD ≤ q * cc
  · rw [if_pos g6] at h; exact Except.noConfusion h
  rw [if_neg g6] at h
  by_cases g7 : U256MOD ≤ f1 + f2
  · rw [if_pos g7] at h; exact Except.noConfusion h
  rw [if_neg g7] at h
  by_cases g8 : U256MOD ≤ f1 + f2 + f3
  · rw [if_pos g8] at h; exact Except.noConfusion h
  rw [if_neg g8] at h
  by_cases g9 : q < f1 + f2 + f3
  · rw [if_pos g9] at h; exact Except.noConfusion h
  rw [if_neg g9] at h
  by_cases g10 : U256MOD ≤ (q - (f1 + f2 + f3)) * sf
  · rw [if_pos g10] at h; exact Except.noConfusion h
  rw [if_neg g10] at h
  rw [Except.ok.injEq] at h
  have hz := not_or.1 g1
  exact ⟨hz.1, hz.2, by omega, h.symm⟩

/-- Inversion of a successful `sell_quote_input_internal` call. -/
theorem sell_quote_inv (quote : ℕ) (s : ℚ) (br qr lp pr cc creator : ℕ)
    (r : SellQuoteInputResult)
    (h : sell_quote_input_internal quote s br qr lp pr cc creator = .ok r) :
    br ≠ 0 ∧ qr ≠ 0 ∧ quote ≤ qr ∧
    totalBps lp pr cc creator < 10000 ∧
    ceilN (quote * 10000) (10000 - totalBps lp pr cc creator) < qr ∧
    r = { base := ceilN
            (br * ceilN (quote * 10000) (10000 - totalBps lp pr cc creator))
            (qr - ceilN (quote * 10000) (10000 - totalBps lp pr cc creator))
          internal_raw_quote :=
            ceilN (quote * 10000) (10000 - totalBps lp pr cc creator)
          min_quote := quote * sellSlippageFactor s / PRECISION } := by
  unfold sell_quote_input_internal at h
  dsimp only at h
  unfold totalBps
  generalize hsf : sellSlippageFactor s = sf at h ⊢
  generalize hc : (if creator = 0 then (0 : ℕ) else cc) = c3 at h ⊢
  generalize hraw : ceilN (quote * 10000) (10000 - (lp + pr + c3)) = raw at h ⊢
  by_cases g1 : br = 0 ∨ qr = 0
  · rw [if_pos g1] at h; exact Except.noConfusion h
  rw [if_neg g1] at h
  by_cases g2 : qr < quote
  · rw [if_pos g2] at h; exact Except.noConfusion h
  rw [if_neg g2] at h
  by_cases g3 : U256MOD ≤ lp + pr
  · rw [if_pos g3] at h; exact Except.noConfusion h
  rw [if_neg g3] at h
  by_cases g4 : U256MOD ≤ lp + pr + c3
  · rw [if_pos g4] at h; exact Except.noConfusion h
  rw [if_neg g4] at h
  by_cases g5 : 10000 < lp + pr + c3
  · rw [if_pos g5] at h; exact Except.noConfusion h
  rw [if_neg g5] at h
  by_cases g6 : U256MOD ≤ quote * 10000
  · rw [if_pos g6] at h; exact Except.noConfusion h
  rw [if_neg g6] at h
  by_cases g7 : 10000 - (lp + pr + c3) = 0
  · rw [if_pos g7] at h; exact Except.noConfusion h
  rw [if_neg g7] at h
  by_cases g8 : U256MOD ≤ raw
  · rw [if_pos g8] at h; exact Except.noConfusion h
  rw [if_neg g8] at h
  by_cases g9 : qr ≤ raw
  · rw [if_pos g9] at h; exact Except.noConfusion h
  rw [if_neg g9] at h
  by_cases g10 : U256MOD ≤ br * raw
  · rw [if_pos g10] at h; exact Except.noConfusion h
  rw [if_neg g10] at h
  by_cases g11 : U256MOD ≤ ceilN (br * raw) (qr - raw)
  · rw [if_pos g11] at h; exact Except.noConfusion h
  rw [if_neg g11] at h
  by_cases g12 : U256MOD ≤ quote * sf
  · rw [if_pos g12] at h; exact Except.noConfusion h
  rw [if_neg g12] at h
  rw [Except.ok.injEq] at h
  have hz := not_or.1 g1
  exact ⟨hz.1, hz.2, by omega, by omega, by omega, h.symm⟩

/-- Core arithmetic of the amended round-trip claim: if the gross quote out
`q` satisfies the exact constant-product identity `q * (br + x) = qr * x`,
the net proceeds `n` retain at least the `(10000 - f)/10000` fraction of
`q`, and the buy-back call succeeded (`raw < qr`), then the base input
charged to extract those proceeds is at least `x`. -/
theorem roundtrip_ge (x br qr f q n raw : ℕ)
    (hbr : br ≠ 0)
    (hq : q * (br + x) = qr * x)
    (hn : q * (10000 - f) ≤ n * 10000)
    (hraw : raw = ceilN (n * 10000) (10000 - f))
    (hf : f < 10000)
    (hrq : raw < qr) :
    x ≤ ceilN (br * raw) (qr - raw) := by
  have hqraw : q ≤ raw := by
    subst hraw
    exact le_ceilN_of_mul_le q _ _ (by omega) hn
  have hqqr : q ≤ qr := by
    have h1 : q * (br + x) ≤ qr * (br + x) := by
      rw [hq]
      exact Nat.mul_le_mul (le_refl qr) (by omega)
    exact Nat.le_of_mul_le_mul_right h1 (by omega)
  have key : (qr - raw) * x ≤ br * raw := by
    have e1 : (qr - q) * x = qr * x - q * x := Nat.sub_mul qr q x
    have e2 : q * (br + x) = q * br + q * x := by ring
    have e3 : (qr - q) * x = q * br := by omega
    calc (qr - raw) * x ≤ (qr - q) * x := Nat.mul_le_mul (by omega) (le_refl x)
      _ = q * br := e3
      _ ≤ raw * br := Nat.mul_le_mul hqraw (le_refl br)
      _ = br * raw := Nat.mul_comm raw br
  exact le_ceilN_of_mul_le x _ _ (by omega) (by rw [Nat.mul_comm]; exact key)

/-- Claim C4, counterexample. The claim asserts
`baseInForExactQuoteOut(quoteOutForExactBaseIn(x).netQuoteOut) >= x` whenever
both calls succeed.  With reserves `baseReserve = 2, quoteReserve = 1`, no
fees and `x = 1`, the sell floors its gross quote to 0, both calls succeed,
and the buy-back base input is `0 < 1 = x`. -/
theorem c4_counterexample :
    sell_base_input_internal 1 0 2 1 0 0 0 0 =
      .ok { ui_quote := 0, min_quote := 0, internal_quote_amount_out := 0 } ∧
    sell_quote_input_internal 0 0 2 1 0 0 0 0 =
      .ok { base := 0, internal_raw_quote := 0, min_quote := 0 } ∧
    ¬ (1 : ℕ) ≤ 0 := by
  refine ⟨?_, ?_, by omega⟩ <;>
    · simp only [sell_base_input_internal, sell_quote_input_internal,
        sellSlippageFactor_0]
      decide

/-- Claim C4, amended. Round-trip non-profitability holds whenever the
constant-product division is exact, i.e. `(baseReserve + x)` divides
`quoteReserve * x` (the counterexample shows the floor loss in the gross
quote otherwise breaks the bound): if `quoteOutForExactBaseIn(x)` succeeds
with net quote `n` and `baseInForExactQuoteOut(n)` succeeds on the same
reserves and fee schedule, the buy-back base input is at least `x`. -/
theorem c4_amended (x : ℕ) (s1 s2 : ℚ) (br qr lp pr cc creator : ℕ)
    (hdvd : (br + x) ∣ qr * x)
    (r1 : SellBaseInputResult) (r2 : SellQuoteInputResult)
    (h1 : sell_base_input_internal x s1 br qr lp pr cc creator = .ok r1)
    (h2 : sell_quote_input_internal r1.ui_quote s2 br qr lp pr cc creator = .ok r2) :
    x ≤ r2.base := by
  obtain ⟨hbr, hqr, htf, hr1⟩ := sell_base_inv x s1 br qr lp pr cc creator r1 h1
  set q := qr * x / (br + x) with hqdef
  set tf := totalFee3 q lp pr cc creator with htfdef
  have hui : r1.ui_quote = q - tf := by rw [hr1]
  rw [hui] at h2
  obtain ⟨-, -, -, hflt, hrawlt, hr2⟩ :=
    sell_quote_inv (q - tf) s2 br qr lp pr cc creator r2 h2
  set f := totalBps lp pr cc creator with hfdef
  set raw := ceilN ((q - tf) * 10000) (10000 - f) with hrawdef
  have hq : q * (br + x) = qr * x := Nat.div_mul_cancel hdvd
  have h10 : tf * 10000 ≤ q * f := by
    rw [htfdef, hfdef]
    unfold totalFee3 totalBps feeAmt
    have d1 : q * lp / 10000 * 10000 ≤ q * lp := Nat.div_mul_le_self _ _
    have d2 : q * pr / 10000 * 10000 ≤ q * pr := Nat.div_mul_le_self _ _
    by_cases hcr : creator = 0
    · simp only [hcr, if_pos]
      have e : q * (lp + pr + 0) = q * lp + q * pr := by ring
      calc (q * lp / 10000 + q * pr / 10000 + 0) * 10000
          = q * lp / 10000 * 10000 + q * pr / 10000 * 10000 := by ring
        _ ≤ q * lp + q * pr := by omega
        _ = q * (lp + pr + 0) := e.symm
    · simp only [hcr, if_neg, if_false]
      have d3 : q * cc / 10000 * 10000 ≤ q * cc := Nat.div_mul_le_self _ _
      have e : q * (lp + pr + cc) = q * lp + q * pr + q * cc := by ring
      calc (q * lp / 10000 + q * pr / 10000 + q * cc / 10000) * 10000
          = q * lp / 10000 * 10000 + q * pr / 10000 * 10000 +
              q * cc / 10000 * 10000 := by ring
        _ ≤ q * lp + q * pr + q * cc := by omega
        _ = q * (lp + pr + cc) := e.symm
  have hn : q * (10000 - f) ≤ (q - tf) * 10000 := by
    have e1 : (q - tf) * 10000 = q * 10000 - tf * 10000 := Nat.sub_mul q tf 10000
    have e2 : q * (10000 - f) = q * 10000 - q * f := by
      rw [mul_comm q (10000 - f), Nat.sub_mul, mul_comm 10000 q, mul_comm f q]
    omega
  have hmain : x ≤ ceilN (br * raw) (qr - raw) :=
    roundtrip_ge x br qr f q (q - tf) raw hbr hq hn hrawdef hflt hrawlt
  rw [hr2]
  exact hmain

/-- Witness for the amended C4: reserves `2, 2`, `x = 2` (so that
`(2+2) ∣ 2*2`), no fees, zero slippage; the net quote is 1 and the buy-back
base input is exactly `2 = x`. -/
theorem c4_witness :
    (2 + 2) ∣ 2 * 2 ∧
    (2 : ℕ) ≤ SellQuoteInputResult.base
      { base := 2, internal_raw_quote := 1, min_quote := 1 } :=
  ⟨by norm_num,
    c4_amended 2 0 0 2 2 0 0 0 0 (by norm_num)
      { ui_quote := 1, min_quote := 1, internal_quote_amount_out := 1 }
      { base := 2, internal_raw_quote := 1, min_quote := 1 }
      (by simp only [sell_base_input_internal, sellSlippageFactor_0]; decide)
      (by simp only [sell_quote_input_internal, sellSlippageFactor_0]; decide)⟩

/-- Claim C1. The spec says `baseInForExactQuoteOut` must return `FeeExceedsMax`
as a value when the applicable fee tiers sum to 10000 bps or more.  The code
has no such check: with `lpFeeBps = 10000` (creator fee waived) it computes
`10000 - 10000 = 0` and divides by zero inside `ceil_div`, which panics
(`U256` division by zero), modelled as the `abort` outcome — not a returned
error value.  Reserves are nonzero, `quoteOut = 1 ≤ quoteReserve = 2`. -/
theorem c1_fee_exceeds_max_panics :
    sell_quote_input_internal 1 0 1 2 10000 0 0 0 = .error .abort := by decide

/-- Claim C2, counterexample. The claim says the operation fails exactly when
`baseIn > baseReserve` and succeeds for every `baseIn ≤ baseReserve`.  At
`baseIn = baseReserve = 1` (nonzero reserves) we have `baseIn ≤ baseReserve`,
yet the code returns the `InsufficientLiquidity`-style error `Custom(1)`
because the denominator `baseReserve - baseIn` is zero. -/
theorem c2_counterexample :
    (1 : ℕ) ≤ 1 ∧ buy_base_input_internal 1 0 1 1 0 0 0 0 = .error .custom1 := by
  decide

/-- Claim C2, amended. `quoteForExactBaseIn` fails with `Custom(1)` exactly
when `baseIn ≥ baseReserve`; for every `baseIn < baseReserve` (reserves and
input within `u64`, fee tiers within 10000 bps, any slippage) it succeeds and
its gross quote input equals `ceil(quoteReserve*baseIn / (baseReserve-baseIn))`. -/
theorem c2_amended (base : ℕ) (s : ℚ) (br qr lp pr cc creator : ℕ)
    (hbr0 : br ≠ 0) (hqr0 : qr ≠ 0)
    (hbr : br < 2 ^ 64) (hqr : qr < 2 ^ 64) (hbase : base < 2 ^ 64)
    (hlp : lp ≤ 10000) (hpr : pr ≤ 10000) (hcc : cc ≤ 10000) :
    (br ≤ base →
      buy_base_input_internal base s br qr lp pr cc creator = .error .custom1) ∧
    (base < br →
      ∃ r, buy_base_input_internal base s br qr lp pr cc creator = .ok r ∧
        r.internal_quote_amount = ceilN (qr * base) (br - base)) := by
  have hmul : qr * base < 2 ^ 128 :=
    lt_of_lt_of_le (Nat.mul_lt_mul'' hqr hbase) (by norm_num)
  have g1 : ¬(br = 0 ∨ qr = 0) := not_or.2 ⟨hbr0, hqr0⟩
  have g3 : ¬(U256MOD ≤ qr * base) := by unfold U256MOD; omega
  constructor
  · intro h
    rcases lt_or_eq_of_le h with hlt | heq
    · simp only [buy_base_input_internal]
      rw [if_neg g1, if_pos hlt]
    · simp only [buy_base_input_internal]
      rw [if_neg g1, if_neg (by omega), if_neg g3, if_pos (by omega)]
  · intro h
    have g2 : ¬(br < base) := by omega
    have g4 : ¬(br - base = 0) := by omega
    have hqb : ceilN (qr * base) (br - base) ≤ 2 ^ 128 := by
      have := ceilN_le (qr * base) (br - base)
      omega
    set q := ceilN (qr * base) (br - base) with hqdef
    have g5 : ¬(U256MOD ≤ q) := by unfold U256MOD; omega
    have g6 : ¬(U256MOD ≤ q * lp) := by
      have := Nat.mul_le_mul hqb hlp
      unfold U256MOD; omega
    have g7 : ¬(U256MOD ≤ q * pr) := by
      have := Nat.mul_le_mul hqb hpr
      unfold U256MOD; omega
    have g8 : ¬(creator ≠ 0 ∧ U256MOD ≤ q * cc) := by
      rintro ⟨-, habs⟩
      have := Nat.mul_le_mul hqb hcc
      unfold U256MOD at habs; omega
    have hf1 : feeAmt q lp ≤ q := feeAmt_le q lp hlp
    have hf2 : feeAmt q pr ≤ q := feeAmt_le q pr hpr
    have hf3 : (if creator = 0 then 0 else feeAmt q cc) ≤ q := by
      split
      · exact Nat.zero_le q
      · exact feeAmt_le q cc hcc
    have g9 : ¬(U256MOD ≤ q + feeAmt q lp + feeAmt q pr +
        (if creator = 0 then 0 else feeAmt q cc)) := by
      unfold U256MOD; omega
    have g10 : ¬(U256MOD ≤ (q + feeAmt q lp + feeAmt q pr +
        (if creator = 0 then 0 else feeAmt q cc)) * buySlippageFactor s) := by
      have h1 : q + feeAmt q lp + feeAmt q pr +
          (if creator = 0 then 0 else feeAmt q cc) ≤ 2 ^ 130 := by omega
      have h2 := u64sat_le (round ((1 + s / 100) * (PRECISION : ℚ)))
      have h3 : buySlippageFactor s ≤ 2 ^ 64 - 1 := h2
      have := Nat.mul_le_mul h1 h3
      unfold U256MOD; omega
    simp only [buy_base_input_internal]
    rw [if_neg g1, if_neg g2, if_neg g3, if_neg g4, ← hqdef,
      if_neg g5, if_neg g6, if_neg g7, if_neg g8, if_neg g9, if_neg g10]
    exact ⟨_, rfl, rfl⟩

/-- Witness for the amended C2 at concrete inputs
`baseIn = 1 < baseReserve = 2`, `quoteReserve = 3`, all fee tiers 5 bps,
slippage 1%. -/
theorem c2_witness :
    (1 : ℕ) < 2 ∧
    ∃ r, buy_base_input_internal 1 1 2 3 5 5 5 0 = .ok r ∧
      r.internal_quote_amount = ceilN (3 * 1) (2 - 1) :=
  ⟨by norm_num,
    (c2_amended 1 1 2 3 5 5 5 0 (by norm_num) (by norm_num) (by norm_num)
      (by norm_num) (by norm_num) (by norm_num) (by norm_num) (by norm_num)).2
      (by norm_num)⟩

theorem sellSlippageFactor_100 : sellSlippageFactor 100 = 0 := by
  unfold sellSlippageFactor u64sat PRECISION
  norm_num

/-- Claim C6, counterexample. The claim says every sell-side input with
slippage ≥ 100% fails with `InvalidSlippage`.  At slippage exactly 100% —
where the `f64` factor computation `(1.0 - 100.0/100.0) * 1e9 = 0.0` is
exact — `quoteOutForExactBaseIn` succeeds instead of failing, returning a
quote whose minimum-acceptable bound is 0. -/
theorem c6_counterexample :
    sell_base_input_internal 1 100 1 100 0 0 0 0 =
      .ok { ui_quote := 50, min_quote := 0, internal_quote_amount_out := 50 } := by
  simp only [sell_base_input_internal, sellSlippageFactor_100]
  decide

/-- Claim C6, amended. The sell-side operations perform no slippage
validation: for every slippage percentage ≥ 100 the slippage factor
saturates to zero (the rounded value is non-positive and Rust's `as u64`
cast clamps it), the operations do not fail on account of slippage, and any
quote they return carries `min_quote = 0` — a disabled, never sign-inverted
bound.  No `InvalidSlippage` failure exists in the code. -/
theorem c6_amended (s : ℚ) (hs : 100 ≤ s) :
    sellSlippageFactor s = 0 ∧
    (∀ base br qr lp pr cc creator r,
      sell_base_input_internal base s br qr lp pr cc creator = .ok r →
        r.min_quote = 0) ∧
    (∀ quote br qr lp pr cc creator r,
      sell_quote_input_internal quote s br qr lp pr cc creator = .ok r →
        r.min_quote = 0) := by
  have harg : (1 - s / 100) * (PRECISION : ℚ) ≤ 0 := by
    have h1 : (1 : ℚ) - s / 100 ≤ 0 := by linarith
    have h2 : (0 : ℚ) ≤ (PRECISION : ℚ) := by unfold PRECISION; norm_num
    exact mul_nonpos_of_nonpos_of_nonneg h1 h2
  have hround : round ((1 - s / 100) * (PRECISION : ℚ)) ≤ 0 := by
    rw [round_eq]
    have : (1 - s / 100) * (PRECISION : ℚ) + 1 / 2 < ((1 : ℤ) : ℚ) := by
      push_cast; linarith
    have hfl := Int.floor_lt.2 this
    omega
  have hfac : sellSlippageFactor s = 0 := by
    unfold sellSlippageFactor u64sat
    rw [Int.toNat_of_nonpos hround]
    simp
  refine ⟨hfac, ?_, ?_⟩
  · intro base br qr lp pr cc creator r h
    obtain ⟨-, -, -, hr⟩ := sell_base_inv base s br qr lp pr cc creator r h
    rw [hr, hfac]
    simp
  · intro quote br qr lp pr cc creator r h
    obtain ⟨-, -, -, -, -, hr⟩ := sell_quote_inv quote s br qr lp pr cc creator r h
    rw [hr, hfac]
    simp

/-- Witness for the amended C6 at slippage 150%. -/
theorem c6_witness :
    sellSlippageFactor 150 = 0 ∧
    (∀ base br qr lp pr cc creator r,
      sell_base_input_internal base 150 br qr lp pr cc creator = .ok r →
        r.min_quote = 0) ∧
    (∀ quote br qr lp pr cc creator r,
      sell_quote_input_internal quote 150 br qr lp pr cc creator = .ok r →
        r.min_quote = 0) :=
  c6_amended 150 (by norm_num)

end PumpAmm


namespace FixedPow

/-- With a normalised base (`sb < 2^64`) and a result bounded by `ONE`, the
overflow-checked loop of `src/lib/math/src/math.rs` never fails and computes
`powFold`. -/
theorem mathLoop_eq_powFold :
    ∀ (n e sb r : ℕ), sb < 2 ^ 64 → r ≤ 2 ^ 64 →
      mathLoop n e sb r = some (powFold n e sb r) := by
  intro n
  induction n with
  | zero => intro e sb r _ _; rfl
  | succ m ih =>
    intro e sb r hsb hr
    have hrs : r * sb < 2 ^ 128 := by
      have h1 : r * sb ≤ 2 ^ 64 * sb := Nat.mul_le_mul hr (le_refl sb)
      omega
    have hss : sb * sb < 2 ^ 128 := by
      have h1 : sb * sb ≤ 2 ^ 64 * sb := Nat.mul_le_mul (le_of_lt hsb) (le_refl sb)
      omega
    have hsb2 : sb * sb / 2 ^ 64 < 2 ^ 64 := Nat.div_lt_of_lt_mul (by omega)
    have hr2 : ∀ r1 : ℕ, r1 * sb < 2 ^ 128 → r1 * sb / 2 ^ 64 ≤ 2 ^ 64 := by
      intro r1 h
      exact le_of_lt (Nat.div_lt_of_lt_mul (by omega))
    by_cases hb : e % 2 = 1
    · simp only [mathLoop, powFold, hb, hrs, hss, ite_true, if_true]
      exact ih (e / 2) _ _ hsb2 (hr2 r hrs)
    · simp only [mathLoop, powFold, hb, hss, ite_false, if_false]
      exact ih (e / 2) _ _ hsb2 hr

/-- With a normalised base the loop of `src/lib/meteora-dlmm/src/math.rs`
(18 squarings between 19 bit tests) never fails and also computes
`powFold`: the final squaring present in `powFold` does not affect the
accumulated result. -/
theorem dlmmLoop_eq_powFold :
    ∀ (n e sb r : ℕ), sb < 2 ^ 64 → r ≤ 2 ^ 64 →
      dlmmLoop n e sb r = some (powFold n e sb r) := by
  intro n
  induction n with
  | zero => intro e sb r _ _; rfl
  | succ m ih =>
    intro e sb r hsb hr
    have hrs : r * sb < 2 ^ 128 := by
      have h1 : r * sb ≤ 2 ^ 64 * sb := Nat.mul_le_mul hr (le_refl sb)
      omega
    have hss : sb * sb < 2 ^ 128 := by
      have h1 : sb * sb ≤ 2 ^ 64 * sb := Nat.mul_le_mul (le_of_lt hsb) (le_refl sb)
      omega
    have hsb2 : sb * sb / 2 ^ 64 < 2 ^ 64 := Nat.div_lt_of_lt_mul (by omega)
    have hr2 : r * sb / 2 ^ 64 ≤ 2 ^ 64 := le_of_lt (Nat.div_lt_of_lt_mul (by omega))
    cases m with
    | zero =>
      by_cases hb : e % 2 = 1
      · simp only [dlmmLoop, powFold, hb, hrs, ite_true, if_true]
      · simp only [dlmmLoop, powFold, hb, ite_false, if_false]
    | succ k =>
      by_cases hb : e % 2 = 1
      · simp only [dlmmLoop, powFold, hb, hrs, hss, ite_true, if_true]
        exact ih (e / 2) _ _ hsb2 hr2
      · simp only [dlmmLoop, powFold, hb, hss, ite_false, if_false]
        exact ih (e / 2) _ _ hsb2 hr

/-- The normalised loop base is always below `2^64`: a base below `ONE` is
kept, a base at or above `ONE` is replaced by `u128::MAX / base ≤ 2^64 - 1`. -/
theorem normalized_sb_lt (base : ℕ) :
    (if ONE ≤ base then U128MAX / base else base) < 2 ^ 64 := by
  split
  · rename_i hb
    have h1 : U128MAX / base ≤ U128MAX / ONE := Nat.div_le_div_left hb (by
      unfold ONE; norm_num)
    have h2 : U128MAX / ONE = 2 ^ 64 - 1 := by decide
    omega
  · rename_i hb
    unfold ONE at hb
    omega

/-- Claim C10. The two fixed-point `pow` implementations (`lib/math` and
`lib/meteora-dlmm`) agree — both failure and bit-identical success — for
every base and every exponent with `|e| ≤ 18`: on that range the differing
range checks (`19` versus `0x80000`) and the `i32::MIN` guard never fire,
and the two unrolled loops compute the same `powFold`. -/
theorem c10_pow_equiv (base : ℕ) (e : ℤ) (h1 : -18 ≤ e) (h2 : e ≤ 18) :
    mathPow base e = dlmmPow base e := by
  unfold mathPow dlmmPow
  by_cases he0 : e = 0
  · rw [if_pos he0, if_pos he0]
  · have hna : e.natAbs ≤ 18 := by omega
    rw [if_neg he0, if_neg he0, if_neg (by omega : ¬ e = -(2 ^ 31)),
      if_neg (by omega : ¬ 19 ≤ e.natAbs), if_neg (by omega : ¬ 524288 ≤ e.natAbs)]
    dsimp only
    rw [mathLoop_eq_powFold 19 e.natAbs _ ONE (normalized_sb_lt base) (le_of_eq rfl),
      dlmmLoop_eq_powFold 19 e.natAbs _ ONE (normalized_sb_lt base) (le_of_eq rfl)]

/-- Witness for C10 at base `3 * 2^63` (value 1.5) and exponent 5. -/
theorem c10_witness : mathPow (3 * 2 ^ 63) 5 = dlmmPow (3 * 2 ^ 63) 5 :=
  c10_pow_equiv (3 * 2 ^ 63) 5 (by norm_num) (by norm_num)

/-- Claim C5, counterexample. The claim says both `pow` implementations fail
for every `|exponent| ≥ 19`.  The `meteora-dlmm` `pow` has range bound
`0x80000 = 524288`, not 19: at `base = ONE`, `exponent = 19` it succeeds. -/
theorem c5_counterexample : dlmmPow ONE 19 = some 18446744073709551635 := by decide

/-- Claim C5, amended. The `lib/math` `pow` fails for every `|exponent| ≥ 19`
and in particular at `i32::MIN`; the `meteora-dlmm` `pow` enforces the wider
bound `|exponent| < 524288` instead (failing at `i32::MIN` as well, whose
wrapped absolute value `2^31` exceeds that bound). -/
theorem c5_amended (base : ℕ) (e : ℤ)
    (hlo : -(2 ^ 31) ≤ e) (hhi : e < 2 ^ 31) (h19 : 19 ≤ e.natAbs) :
    mathPow base e = none ∧
    (524288 ≤ e.natAbs → dlmmPow base e = none) ∧
    dlmmPow base (-(2 ^ 31)) = none := by
  refine ⟨?_, ?_, ?_⟩
  · unfold mathPow
    rw [if_neg (by omega : ¬ e = 0)]
    by_cases hm : e = -(2 ^ 31)
    · rw [if_pos hm]
    · rw [if_neg hm, if_pos h19]
  · intro h5
    unfold dlmmPow
    rw [if_neg (by omega : ¬ e = 0), if_pos h5]
  · unfold dlmmPow
    rw [if_neg (by omega : ¬ (-(2 ^ 31) : ℤ) = 0),
      if_pos (by omega : 524288 ≤ ((-(2 ^ 31) : ℤ)).natAbs)]

/-- Witness for the amended C5 at base 5, exponent 19. -/
theorem c5_witness :
    mathPow 5 19 = none ∧
    (524288 ≤ (19 : ℤ).natAbs → dlmmPow 5 19 = none) ∧
    dlmmPow 5 (-(2 ^ 31)) = none :=
  c5_amended 5 19 (by omega) (by omega) (by omega)

/-- Claim C7, counterexample. The claim says `pow(b, e)` succeeds with a
positive result for every raw base in `(0, 2^65)` and `|e| ≤ 18`.  At raw
base 1 (a positive Q64.64 value) and exponent 2 the squaring underflows to
zero and `pow` returns `None`. -/
theorem c7_counterexample :
    (0 : ℕ) < 1 ∧ (1 : ℕ) < 2 ^ 65 ∧ mathPow 1 2 = none := by
  refine ⟨by omega, by omega, ?_⟩
  decide

/-- Claim C9. `get_price_from_id` computes `base = ONE + (binStep << 64) / 10000`
and returns exactly `pow(base, binId)`: every `pow` failure propagates and
there is no other failure mode (for `u16` bin steps the shift cannot
truncate and the `checked_add` cannot overflow). -/
theorem c9_get_price_eq (id : ℤ) (step : ℕ) (hstep : step < 2 ^ 16) :
    get_price_from_id id step = dlmmPow (ONE + step * 2 ^ 64 / 10000) id := by
  unfold get_price_from_id
  dsimp only
  have h1 : step * 2 ^ 64 % 2 ^ 128 = step * 2 ^ 64 := Nat.mod_eq_of_lt (by omega)
  rw [h1]
  rw [if_neg (by unfold ONE; omega)]

/-- Witness for C9 at `binId = 10`, `binStep = 100` (the spec's §8 scenario,
whose value is `1.01^10 ≈ 1.10462` in Q64.64). -/
theorem c9_witness :
    get_price_from_id 10 100 = dlmmPow (ONE + 100 * 2 ^ 64 / 10000) 10 :=
  c9_get_price_eq 10 100 (by omega)

/-- Claim C8, counterexample. The claim says `priceFromBin` is strictly
increasing in the bin id wherever it succeeds, for fixed positive
`binStepBps`.  With `binStepBps = 1` the adjacent ids `-395583 < -395582`
both succeed and return the same price 122: far from bin 0 the Q64.64 value
becomes so coarse that consecutive bins collide. -/
theorem c8_counterexample :
    get_price_from_id (-395583) 1 = some 122 ∧
    get_price_from_id (-395582) 1 = some 122 := by
  constructor <;> decide

theorem powFold_zero : ∀ (n sb r : ℕ), powFold n 0 sb r = r := by
  intro n
  induction n with
  | zero => intro sb r; rfl
  | succ m ih => intro sb r; simp only [powFold, Nat.zero_div, Nat.zero_mod]; exact ih _ r

theorem div_pow_mul_pow_le (a k : ℕ) : (a / 2 ^ 64) ^ k * (2 ^ 64) ^ k ≤ a ^ k := by
  rw [← Nat.mul_pow]
  exact Nat.pow_le_pow_left (Nat.div_mul_le_self a _) k

/-- Splitting the low bit off a truncated exponent. -/
theorem mod_pow_succ_split (e m : ℕ) :
    e % 2 ^ (m + 1) = e % 2 + 2 * (e / 2 % 2 ^ m) := by
  have h1 : e % 2 ^ (m + 1) % 2 = e % 2 :=
    Nat.mod_mod_of_dvd e ⟨2 ^ m, by ring⟩
  have h2 : e % 2 ^ (m + 1) / 2 = e / 2 % 2 ^ m := by
    have hp : (2 : ℕ) ^ (m + 1) = 2 * 2 ^ m := by ring
    rw [hp]
    exact Nat.mod_mul_right_div_self e 2 (2 ^ m)
  omega

/-- Floors only lose value: the loop result is bounded above by the exact
scaled product `r * sb^e / 2^(64 e)` (stated multiplied out over `ℕ`). -/
theorem powFold_ub :
    ∀ (n e sb r : ℕ),
      powFold n e sb r * (2 ^ 64) ^ (e % 2 ^ n) ≤ r * sb ^ (e % 2 ^ n) := by
  intro n
  induction n with
  | zero =>
    intro e sb r
    simp [powFold, Nat.mod_one]
  | succ m ih =>
    intro e sb r
    rw [mod_pow_succ_split e m]
    have ihm := ih (e / 2) (sb * sb / 2 ^ 64) (if e % 2 = 1 then r * sb / 2 ^ 64 else r)
    have hkey : (if e % 2 = 1 then r * sb / 2 ^ 64 else r) * (2 ^ 64) ^ (e % 2) ≤
        r * sb ^ (e % 2) := by
      by_cases hb : e % 2 = 1
      · rw [hb]
        simp only [if_pos, ite_true, pow_one]
        exact Nat.div_mul_le_self (r * sb) (2 ^ 64)
      · have hb0 : e % 2 = 0 := by omega
        rw [hb0]
        simp [hb]
    calc powFold (m + 1) e sb r * (2 ^ 64) ^ (e % 2 + 2 * (e / 2 % 2 ^ m))
        = (powFold m (e / 2) (sb * sb / 2 ^ 64)
            (if e % 2 = 1 then r * sb / 2 ^ 64 else r) * (2 ^ 64) ^ (e / 2 % 2 ^ m)) *
          ((2 ^ 64) ^ (e / 2 % 2 ^ m) * (2 ^ 64) ^ (e % 2)) := by
          rw [powFold]
          ring
      _ ≤ ((if e % 2 = 1 then r * sb / 2 ^ 64 else r) * (sb * sb / 2 ^ 64) ^ (e / 2 % 2 ^ m)) *
          ((2 ^ 64) ^ (e / 2 % 2 ^ m) * (2 ^ 64) ^ (e % 2)) :=
          Nat.mul_le_mul_right _ ihm
      _ = ((if e % 2 = 1 then r * sb / 2 ^ 64 else r) * (2 ^ 64) ^ (e % 2)) *
          ((sb * sb / 2 ^ 64) ^ (e / 2 % 2 ^ m) * (2 ^ 64) ^ (e / 2 % 2 ^ m)) := by ring
      _ ≤ (r * sb ^ (e % 2)) * (sb * sb) ^ (e / 2 % 2 ^ m) :=
          Nat.mul_le_mul hkey (div_pow_mul_pow_le (sb * sb) (e / 2 % 2 ^ m))
      _ = r * sb ^ (e % 2 + 2 * (e / 2 % 2 ^ m)) := by
          rw [pow_add, pow_mul]
          ring

/-- Casting `a / 2^64` to `ℚ` under-approximates the exact quotient by less
than one. -/
theorem cast_div64_gt (a : ℕ) : (a : ℚ) / 2 ^ 64 - 1 < ((a / 2 ^ 64 : ℕ) : ℚ) := by
  rw [sub_lt_iff_lt_add, div_lt_iff (by norm_num : (0 : ℚ) < 2 ^ 64)]
  have h : a < (a / 2 ^ 64 + 1) * 2 ^ 64 := by omega
  exact_mod_cast lt_of_lt_of_le h (by push_cast; ring_nf; rfl)

theorem cast_div64_le (a : ℕ) : ((a / 2 ^ 64 : ℕ) : ℚ) ≤ (a : ℚ) / 2 ^ 64 := by
  rw [le_div_iff (by norm_num : (0 : ℚ) < 2 ^ 64)]
  exact_mod_cast Nat.div_mul_le_self a (2 ^ 64)

set_option maxHeartbeats 1000000 in
/-- Lower bound for the loop with explicit error tracking: if the current
squared base under-approximates a reference value `V` by at most `d` and the
current result under-approximates `R` by at most `ρ`, then the loop result
under-approximates `R * (V/2^64)^ê` by at most `ρ + (d+1)·ê`, where `ê` is
the truncated exponent.  Instantiated at `d = ρ = 0` this bounds the total
floor loss of the 19-step loop by the exponent itself. -/
theorem powFold_lb :
    ∀ (n e sb r : ℕ) (V R d rho : ℚ),
      sb < 2 ^ 64 → r ≤ 2 ^ 64 →
      0 ≤ V → V ≤ 2 ^ 64 → 0 ≤ R → R ≤ 2 ^ 64 → 0 ≤ d → 0 ≤ rho →
      V - d ≤ (sb : ℚ) → R - rho ≤ (r : ℚ) →
      R * (V / 2 ^ 64) ^ (e % 2 ^ n) - (rho + (d + 1) * ((e % 2 ^ n : ℕ) : ℚ)) ≤
        (powFold n e sb r : ℚ) := by
  intro n
  induction n with
  | zero =>
    intro e sb r V R d rho hsb hr hV0 hVle hR0 hRle hd0 hrho0 hVd hRr
    have h0 : e % 2 ^ 0 = 0 := by omega
    rw [h0]
    simp only [pow_zero, mul_one, Nat.cast_zero, mul_zero, powFold]
    linarith
  | succ m ih =>
    intro e sb r V R d rho hsb hr hV0 hVle hR0 hRle hd0 hrho0 hVd hRr
    have hNQ : (0 : ℚ) < 2 ^ 64 := by norm_num
    -- numeric side conditions on the next state
    have hss : sb * sb < 2 ^ 128 := by
      have h1 : sb * sb ≤ 2 ^ 64 * sb := Nat.mul_le_mul (le_of_lt hsb) (le_refl sb)
      omega
    have hsb2 : sb * sb / 2 ^ 64 < 2 ^ 64 := Nat.div_lt_of_lt_mul (by omega)
    have hrs : r * sb < 2 ^ 128 := by
      have h1 : r * sb ≤ 2 ^ 64 * sb := Nat.mul_le_mul hr (le_refl sb)
      omega
    have hr2 : (if e % 2 = 1 then r * sb / 2 ^ 64 else r) ≤ 2 ^ 64 := by
      split
      · exact le_of_lt (Nat.div_lt_of_lt_mul (by omega))
      · exact hr
    have hsbq : (0 : ℚ) ≤ (sb : ℚ) := Nat.cast_nonneg sb
    have hsbqle : (sb : ℚ) ≤ 2 ^ 64 := by exact_mod_cast le_of_lt hsb
    have hrq : (0 : ℚ) ≤ (r : ℚ) := Nat.cast_nonneg r
    have hrqle : (r : ℚ) ≤ 2 ^ 64 := by exact_mod_cast hr
    -- reference values for the next step
    set V2 : ℚ := V * V / 2 ^ 64 with hV2def
    have hV20 : 0 ≤ V2 := by positivity
    have hV2le : V2 ≤ 2 ^ 64 := by
      rw [hV2def, div_le_iff hNQ]
      nlinarith
    -- the squared base under-approximates V2 by at most 2d+1
    have hsq : V2 - (2 * d + 1) ≤ ((sb * sb / 2 ^ 64 : ℕ) : ℚ) := by
      have hgt := cast_div64_gt (sb * sb)
      have hcast : ((sb * sb : ℕ) : ℚ) = (sb : ℚ) * (sb : ℚ) := by push_cast; ring
      rw [hcast] at hgt
      by_cases hvd : V ≤ d
      · have hb1 : V2 ≤ V := by
          rw [hV2def, div_le_iff hNQ]
          nlinarith
        have hcn : (0 : ℚ) ≤ ((sb * sb / 2 ^ 64 : ℕ) : ℚ) := Nat.cast_nonneg _
        linarith
      · push_neg at hvd
        have h0 : (0 : ℚ) ≤ V - d := by linarith
        have h1 : (V - d) * (V - d) ≤ (sb : ℚ) * (sb : ℚ) :=
          mul_self_le_mul_self h0 hVd
        have h2 : V * V ≤ (sb : ℚ) * (sb : ℚ) + 2 * d * 2 ^ 64 := by nlinarith
        have h3 : V2 ≤ (sb : ℚ) * (sb : ℚ) / 2 ^ 64 + 2 * d := by
          rw [hV2def, div_add' _ _ _ (ne_of_gt hNQ), div_le_div_iff hNQ hNQ]
          nlinarith
        linarith
    by_cases hb : e % 2 = 1
    · -- low bit set: the result absorbs one base factor
      have hr1 : ((r * sb / 2 ^ 64 : ℕ) : ℚ) ≤ 2 ^ 64 := by
        exact_mod_cast le_of_lt (Nat.div_lt_of_lt_mul (by omega : r * sb < 2 ^ 64 * 2 ^ 64))
      have hgtr := cast_div64_gt (r * sb)
      have hcastr : ((r * sb : ℕ) : ℚ) = (r : ℚ) * (sb : ℚ) := by push_cast; ring
      rw [hcastr] at hgtr
      set R2 : ℚ := R * V / 2 ^ 64 with hR2def
      have hR20 : 0 ≤ R2 := by positivity
      have hR2le : R2 ≤ 2 ^ 64 := by
        rw [hR2def, div_le_iff hNQ]
        nlinarith
      have hres : R2 - (rho + d + 1) ≤ ((r * sb / 2 ^ 64 : ℕ) : ℚ) := by
        have hc0 : (0 : ℚ) ≤ ((r * sb / 2 ^ 64 : ℕ) : ℚ) := Nat.cast_nonneg _
        by_cases hRrho : R ≤ rho
        · have hb1 : R2 ≤ R := by
            rw [hR2def, div_le_iff hNQ]
            nlinarith
          linarith
        · push_neg at hRrho
          by_cases hvd : V ≤ d
          · have hb1 : R2 ≤ V := by
              rw [hR2def, div_le_iff hNQ]
              nlinarith
            linarith
          · push_neg at hvd
            have h1 : (R - rho) * (V - d) ≤ (r : ℚ) * (sb : ℚ) :=
              mul_le_mul hRr hVd (by linarith) hrq
            have h2 : R * V - 2 ^ 64 * (d + rho) ≤ (r : ℚ) * (sb : ℚ) := by
              nlinarith [mul_le_mul_of_nonneg_right hRle hd0,
                mul_le_mul_of_nonneg_left hVle hrho0, mul_nonneg hrho0 hd0]
            have h3 : R2 - (d + rho) ≤ (r : ℚ) * (sb : ℚ) / 2 ^ 64 := by
              rw [hR2def, div_sub' _ _ _ (ne_of_gt hNQ), div_le_div_iff hNQ hNQ]
              nlinarith
            linarith
      have ihm := ih (e / 2) (sb * sb / 2 ^ 64) (r * sb / 2 ^ 64) V2 R2
        (2 * d + 1) (rho + d + 1) hsb2 (by simpa [hb] using hr2) hV20 hV2le hR20 hR2le
        (by linarith) (by linarith) hsq hres
      rw [mod_pow_succ_split e m, hb]
      have hfold : powFold (m + 1) e sb r = powFold m (e / 2) (sb * sb / 2 ^ 64)
          (r * sb / 2 ^ 64) := by
        rw [powFold, if_pos hb]
      rw [hfold]
      refine le_trans (le_of_eq ?_) ihm
      have hVpow : (V / 2 ^ 64) ^ (1 + 2 * (e / 2 % 2 ^ m)) =
          (V / 2 ^ 64) * ((V2 / 2 ^ 64) ^ (e / 2 % 2 ^ m)) := by
        have hsq2 : V2 / 2 ^ 64 = (V / 2 ^ 64) ^ 2 := by
          rw [hV2def]
          field_simp
          ring
        rw [hsq2, ← pow_mul, pow_add, pow_one]
      push_cast
      rw [hVpow, hR2def]
      ring
    · -- low bit clear: the result is unchanged
      have hb0 : e % 2 = 0 := by omega
      have ihm := ih (e / 2) (sb * sb / 2 ^ 64) r V2 R
        (2 * d + 1) rho hsb2 hr hV20 hV2le hR0 hRle (by linarith) hrho0 hsq hRr
      rw [mod_pow_succ_split e m, hb0]
      have hfold : powFold (m + 1) e sb r = powFold m (e / 2) (sb * sb / 2 ^ 64) r := by
        rw [powFold, if_neg hb]
      rw [hfold]
      refine le_trans (le_of_eq ?_) ihm
      have hVpow : (V / 2 ^ 64) ^ (0 + 2 * (e / 2 % 2 ^ m)) =
          (V2 / 2 ^ 64) ^ (e / 2 % 2 ^ m) := by
        have hsq2 : V2 / 2 ^ 64 = (V / 2 ^ 64) ^ 2 := by
          rw [hV2def]
          field_simp
          ring
        rw [hsq2, ← pow_mul, zero_add]
      push_cast
      rw [hVpow]
      ring

/-- Upper bound on the 19-step loop started at `ONE`, in `ℚ`. -/
theorem powFold_le_bound (x e : ℕ) (hx : x < 2 ^ 64) (he : e ≤ 18) :
    (powFold 19 e x (2 ^ 64) : ℚ) ≤ 2 ^ 64 * ((x : ℚ) / 2 ^ 64) ^ e := by
  have hub := powFold_ub 19 e x (2 ^ 64)
  rw [Nat.mod_eq_of_lt (by omega : e < 2 ^ 19)] at hub
  have hq : (powFold 19 e x (2 ^ 64) : ℚ) * ((2 : ℚ) ^ 64) ^ e ≤
      2 ^ 64 * ((x : ℚ)) ^ e := by exact_mod_cast hub
  have hpos : (0 : ℚ) < ((2 : ℚ) ^ 64) ^ e := by positivity
  rw [div_pow, ← mul_div_assoc, le_div_iff hpos]
  exact hq

/-- Lower bound on the 19-step loop started at `ONE`: the total floor loss
is at most `e`. -/
theorem powFold_ge_bound (x e : ℕ) (hx : x < 2 ^ 64) (he : e ≤ 18) :
    2 ^ 64 * ((x : ℚ) / 2 ^ 64) ^ e - e ≤ (powFold 19 e x (2 ^ 64) : ℚ) := by
  have hlb := powFold_lb 19 e x (2 ^ 64) (x : ℚ) (2 ^ 64) 0 0 hx (le_refl _)
    (Nat.cast_nonneg x) (by exact_mod_cast le_of_lt hx) (by norm_num) (by norm_num)
    (by norm_num) (by norm_num) (by norm_num) (by push_cast; norm_num)
  rw [Nat.mod_eq_of_lt (by omega : e < 2 ^ 19)] at hlb
  have he2 : ((e : ℕ) : ℚ) = (e : ℚ) := rfl
  linarith [hlb]

/-- The decisive numeric bound: on the whole range of normalised bases that
`get_price_from_id` can produce (bin steps 1‥65535), the relative per-bin
price gap dwarfs the loop's floor loss.  Proven by splitting the range at
`3 * 2^62`. -/
theorem key_bound (x : ℕ)
    (h1 : 2442145240446091429 ≤ x) (h2 : x ≤ 18444899583751176498) :
    19 * ((2 : ℚ) ^ 64) ^ 18 ≤ (x : ℚ) ^ 18 * (2 ^ 64 - (x : ℚ)) := by
  have hxle : x ≤ 2 ^ 64 := by omega
  have hn : 19 * (2 ^ 64) ^ 18 ≤ x ^ 18 * (2 ^ 64 - x) := by
    rcases le_total x 13835058055282163712 with hc | hc
    · calc (19 : ℕ) * (2 ^ 64) ^ 18
          ≤ 2442145240446091429 ^ 18 * (2 ^ 64 - 13835058055282163712) := by decide
        _ ≤ x ^ 18 * (2 ^ 64 - x) :=
          Nat.mul_le_mul (Nat.pow_le_pow_left h1 18) (by omega)
    · calc (19 : ℕ) * (2 ^ 64) ^ 18
          ≤ 13835058055282163712 ^ 18 * (2 ^ 64 - 18444899583751176498) := by decide
        _ ≤ x ^ 18 * (2 ^ 64 - x) :=
          Nat.mul_le_mul (Nat.pow_le_pow_left hc 18) (by omega)
  have hcast : ((2 ^ 64 - x : ℕ) : ℚ) = 2 ^ 64 - (x : ℚ) := by
    rw [Nat.cast_sub hxle]
    norm_num
  calc (19 : ℚ) * ((2 : ℚ) ^ 64) ^ 18 = ((19 * (2 ^ 64) ^ 18 : ℕ) : ℚ) := by
        push_cast
        ring
    _ ≤ ((x ^ 18 * (2 ^ 64 - x) : ℕ) : ℚ) := by exact_mod_cast hn
    _ = (x : ℚ) ^ 18 * (2 ^ 64 - (x : ℚ)) := by rw [Nat.cast_mul, Nat.cast_pow, hcast]

/-- Scaled form of `key_bound` for the normalised ratio `t = x / 2^64`. -/
theorem key_bound_ratio (x : ℕ) (hx : x < 2 ^ 64)
    (hkey : 19 * ((2 : ℚ) ^ 64) ^ 18 ≤ (x : ℚ) ^ 18 * (2 ^ 64 - (x : ℚ))) :
    (19 : ℚ) ≤ ((x : ℚ) / 2 ^ 64) ^ 18 * (2 ^ 64 - (x : ℚ)) := by
  have hpos : (0 : ℚ) < ((2 : ℚ) ^ 64) ^ 18 := by positivity
  rw [div_pow, div_mul_eq_mul_div, le_div_iff hpos]
  linarith [hkey]

/-- On the relevant base range the loop result is positive for every
exponent up to 18: the ideal value exceeds 19 while the floor loss is at
most 18. -/
theorem powFold_pos (x e : ℕ) (hx : x < 2 ^ 64)
    (hkey : 19 * ((2 : ℚ) ^ 64) ^ 18 ≤ (x : ℚ) ^ 18 * (2 ^ 64 - (x : ℚ)))
    (he : e ≤ 18) : 0 < powFold 19 e x (2 ^ 64) := by
  rcases Nat.eq_zero_or_pos e with he0 | hep
  · subst he0
    rw [powFold_zero]
    norm_num
  · have hge := powFold_ge_bound x e hx he
    have hxq : (x : ℚ) ≤ 2 ^ 64 := by exact_mod_cast le_of_lt hx
    have ht0 : (0 : ℚ) ≤ (x : ℚ) / 2 ^ 64 := by positivity
    have ht1 : (x : ℚ) / 2 ^ 64 ≤ 1 := by
      rw [div_le_one (by norm_num : (0 : ℚ) < 2 ^ 64)]
      exact hxq
    have hmono : ((x : ℚ) / 2 ^ 64) ^ 18 ≤ ((x : ℚ) / 2 ^ 64) ^ e :=
      pow_le_pow_of_le_one ht0 ht1 he
    have hkey2 := key_bound_ratio x hx hkey
    have h1 : ((x : ℚ) / 2 ^ 64) ^ 18 * (2 ^ 64 - (x : ℚ)) ≤
        ((x : ℚ) / 2 ^ 64) ^ e * (2 ^ 64 - (x : ℚ)) :=
      mul_le_mul_of_nonneg_right hmono (by linarith)
    have h2 : ((x : ℚ) / 2 ^ 64) ^ e * (2 ^ 64 - (x : ℚ)) ≤
        ((x : ℚ) / 2 ^ 64) ^ e * 2 ^ 64 :=
      mul_le_mul_of_nonneg_left (by linarith) (by positivity)
    have h3 : (19 : ℚ) ≤ ((x : ℚ) / 2 ^ 64) ^ e * (2 ^ 64 - (x : ℚ)) :=
      le_trans hkey2 h1
    rw [show ((x : ℚ) / 2 ^ 64) ^ e * (2 ^ 64 - (x : ℚ)) =
      2 ^ 64 * ((x : ℚ) / 2 ^ 64) ^ e - ((x : ℚ) / 2 ^ 64) ^ e * (x : ℚ)
      from by ring] at h3
    have hnn : (0 : ℚ) ≤ ((x : ℚ) / 2 ^ 64) ^ e * (x : ℚ) :=
      mul_nonneg (pow_nonneg ht0 e) (Nat.cast_nonneg x)
    have heq : (e : ℚ) ≤ 18 := by exact_mod_cast he
    have hfin : (0 : ℚ) < (powFold 19 e x (2 ^ 64) : ℚ) := by
      generalize powFold 19 e x (2 ^ 64) = P at hge ⊢
      linarith
    exact_mod_cast hfin

/-- For exponents at least one the loop result stays below `ONE`. -/
theorem powFold_lt_N (x e : ℕ) (hx : x < 2 ^ 64) (he1 : 1 ≤ e) (he : e ≤ 18) :
    powFold 19 e x (2 ^ 64) < 2 ^ 64 := by
  have hub := powFold_ub 19 e x (2 ^ 64)
  rw [Nat.mod_eq_of_lt (by omega : e < 2 ^ 19)] at hub
  have hxe : x ^ e < (2 ^ 64) ^ e := Nat.pow_lt_pow_left hx (by omega)
  have h2 : powFold 19 e x (2 ^ 64) * (2 ^ 64) ^ e < 2 ^ 64 * (2 ^ 64) ^ e :=
    lt_of_le_of_lt hub (mul_lt_mul_of_pos_left hxe (by norm_num))
  exact lt_of_mul_lt_mul_right h2 (Nat.zero_le _)

/-- Adjacent exponents give strictly decreasing loop results on the
relevant base range: the ideal gap `t^e (2^64 - x)` is at least 19 while
the floor loss is at most 18. -/
theorem powFold_adj (x e : ℕ) (hx : x < 2 ^ 64)
    (hkey : 19 * ((2 : ℚ) ^ 64) ^ 18 ≤ (x : ℚ) ^ 18 * (2 ^ 64 - (x : ℚ)))
    (he : e + 1 ≤ 18) :
    powFold 19 (e + 1) x (2 ^ 64) < powFold 19 e x (2 ^ 64) := by
  have hub := powFold_le_bound x (e + 1) hx he
  have hge := powFold_ge_bound x e hx (by omega)
  have hxq : (x : ℚ) ≤ 2 ^ 64 := by exact_mod_cast le_of_lt hx
  have ht0 : (0 : ℚ) ≤ (x : ℚ) / 2 ^ 64 := by positivity
  have ht1 : (x : ℚ) / 2 ^ 64 ≤ 1 := by
    rw [div_le_one (by norm_num : (0 : ℚ) < 2 ^ 64)]
    exact hxq
  have hmono : ((x : ℚ) / 2 ^ 64) ^ 18 ≤ ((x : ℚ) / 2 ^ 64) ^ e :=
    pow_le_pow_of_le_one ht0 ht1 (by omega)
  have hkey2 := key_bound_ratio x hx hkey
  have h1 : ((x : ℚ) / 2 ^ 64) ^ 18 * (2 ^ 64 - (x : ℚ)) ≤
      ((x : ℚ) / 2 ^ 64) ^ e * (2 ^ 64 - (x : ℚ)) :=
    mul_le_mul_of_nonneg_right hmono (by linarith)
  have hid : (2 : ℚ) ^ 64 * ((x : ℚ) / 2 ^ 64) ^ (e + 1) =
      ((x : ℚ) / 2 ^ 64) ^ e * (x : ℚ) := by
    rw [pow_succ]
    field_simp
    ring
  have h3 : (19 : ℚ) ≤ ((x : ℚ) / 2 ^ 64) ^ e * (2 ^ 64 - (x : ℚ)) :=
    le_trans hkey2 h1
  rw [show ((x : ℚ) / 2 ^ 64) ^ e * (2 ^ 64 - (x : ℚ)) =
    2 ^ 64 * ((x : ℚ) / 2 ^ 64) ^ e - ((x : ℚ) / 2 ^ 64) ^ e * (x : ℚ)
    from by ring] at h3
  have heq : (e : ℚ) ≤ 17 := by exact_mod_cast (by omega : e ≤ 17)
  have hfin : (powFold 19 (e + 1) x (2 ^ 64) : ℚ) < (powFold 19 e x (2 ^ 64) : ℚ) := by
    generalize powFold 19 (e + 1) x (2 ^ 64) = P1 at hub ⊢
    generalize powFold 19 e x (2 ^ 64) = P2 at hge ⊢
    linarith
  exact_mod_cast hfin

/-- Positivity of the loop on bases of value at least one half: the ideal
value stays at or above `2^46`, far above the floor loss. -/
theorem powFold_pos_half (x e : ℕ) (hx : x < 2 ^ 64) (hxlo : 2 ^ 63 ≤ x)
    (he : e ≤ 18) : 0 < powFold 19 e x (2 ^ 64) := by
  rcases Nat.eq_zero_or_pos e with he0 | hep
  · subst he0
    rw [powFold_zero]
    norm_num
  · have hge := powFold_ge_bound x e hx he
    have ht : (1 : ℚ) / 2 ≤ (x : ℚ) / 2 ^ 64 := by
      rw [div_le_div_iff (by norm_num) (by norm_num : (0 : ℚ) < 2 ^ 64)]
      have : (2 : ℚ) ^ 63 ≤ (x : ℚ) := by exact_mod_cast hxlo
      linarith
    have hmono : ((1 : ℚ) / 2) ^ e ≤ ((x : ℚ) / 2 ^ 64) ^ e :=
      pow_le_pow_left (by norm_num) ht e
    have h18 : ((1 : ℚ) / 2) ^ 18 ≤ ((1 : ℚ) / 2) ^ e :=
      pow_le_pow_of_le_one (by norm_num) (by norm_num) he
    have hsc : (2 : ℚ) ^ 64 * ((1 : ℚ) / 2) ^ 18 = 2 ^ 46 := by norm_num
    have hmul : (2 : ℚ) ^ 64 * ((1 : ℚ) / 2) ^ 18 ≤
        2 ^ 64 * ((x : ℚ) / 2 ^ 64) ^ e :=
      mul_le_mul_of_nonneg_left (le_trans h18 hmono) (by positivity)
    have heq : (e : ℚ) ≤ 18 := by exact_mod_cast he
    have hfin : (0 : ℚ) < (powFold 19 e x (2 ^ 64) : ℚ) := by
      generalize powFold 19 e x (2 ^ 64) = P at hge ⊢
      rw [hsc] at hmul
      linarith
    exact_mod_cast hfin

/-- One loop pass with exponent one returns the base itself. -/
theorem powFold_one (sb : ℕ) : powFold 19 1 sb (2 ^ 64) = sb := by
  rw [powFold]
  norm_num
  exact powFold_zero 18 _ sb

/-- Strict antitonicity of `m / ·` when the product of the two divisors
still fits below `m`. -/
theorem div_lt_div_strict (m a b : ℕ) (ha : 0 < a) (hab : a < b)
    (h : a * b ≤ m) : m / b < m / a := by
  have hb : 0 < b := lt_trans ha hab
  have hq : a ≤ m / b := (Nat.le_div_iff_mul_le hb).2 h
  have e4 : m / b * (a + 1) ≤ m / b * b := Nat.mul_le_mul_left (m / b) (by omega)
  have e5 : m / b * b ≤ m := Nat.div_mul_le_self m b
  have hstep : (m / b + 1) * a ≤ m := by
    have e1 : (m / b + 1) * a = m / b * a + a := by ring
    have e3 : m / b * a + m / b = m / b * (a + 1) := by ring
    omega
  have hfin : m / b + 1 ≤ m / a := (Nat.le_div_iff_mul_le ha).2 hstep
  omega

/-- Claim C7, amended. For every base of Q64.64 value in `[1/2, 2)` (raw
value in `[2^63, 2^65)`) and every exponent with `|e| ≤ 18`, the `lib/math`
`pow` succeeds and its result is strictly positive.  (The counterexample
shows tiny bases in `(0, 1/2)` can underflow to `None`.) -/
theorem c7_amended (raw : ℕ) (e : ℤ)
    (h1 : 2 ^ 63 ≤ raw) (h2 : raw < 2 ^ 65) (h3 : -18 ≤ e) (h4 : e ≤ 18) :
    ∃ v, mathPow raw e = some v ∧ 0 < v := by
  unfold mathPow
  by_cases he0 : e = 0
  · rw [if_pos he0]
    exact ⟨ONE, rfl, by unfold ONE; omega⟩
  · rw [if_neg he0, if_neg (by omega : ¬ e = -(2 ^ 31)),
      if_neg (by omega : ¬ 19 ≤ e.natAbs)]
    dsimp only
    have hsb_lo : 2 ^ 63 ≤ (if ONE ≤ raw then U128MAX / raw else raw) := by
      split
      · have hle : raw ≤ 2 ^ 65 - 1 := by omega
        have h5 : U128MAX / (2 ^ 65 - 1) ≤ U128MAX / raw :=
          Nat.div_le_div_left hle (by omega)
        have h6 : U128MAX / (2 ^ 65 - 1) = 2 ^ 63 := by decide
        omega
      · omega
    have hsb_hi := normalized_sb_lt raw
    set sb := if ONE ≤ raw then U128MAX / raw else raw with hsbdef
    have hpos := powFold_pos_half sb e.natAbs hsb_hi hsb_lo (by omega)
    have hltN := powFold_lt_N sb e.natAbs hsb_hi (by omega) (by omega)
    rw [mathLoop_eq_powFold 19 e.natAbs sb ONE hsb_hi (le_of_eq rfl)]
    dsimp only
    rw [show ONE = (2 : ℕ) ^ 64 from rfl]
    rw [if_neg (by omega : ¬ powFold 19 e.natAbs sb (2 ^ 64) = 0)]
    have hM : powFold 19 e.natAbs sb (2 ^ 64) ≤ U128MAX := by
      unfold U128MAX
      omega
    split
    · by_cases hneg : e < 0
      · rw [if_neg (show ¬ (!decide (e < 0)) = true by simp [hneg])]
        exact ⟨_, rfl, hpos⟩
      · rw [if_pos (show (!decide (e < 0)) = true by simp [hneg])]
        exact ⟨_, rfl, Nat.div_pos hM hpos⟩
    · by_cases hneg : e < 0
      · rw [if_pos (show decide (e < 0) = true by simp [hneg])]
        exact ⟨_, rfl, Nat.div_pos hM hpos⟩
      · rw [if_neg (show ¬ decide (e < 0) = true by simp [hneg])]
        exact ⟨_, rfl, hpos⟩

/-- Witness for the amended C7 at raw base `2^63` (value 1/2), exponent -3. -/
theorem c7_witness : ∃ v, mathPow (2 ^ 63) (-3) = some v ∧ 0 < v :=
  c7_amended (2 ^ 63) (-3) (by omega) (by omega) (by omega) (by omega)

/-- Bounds on the normalised loop base produced by `get_price_from_id` for
bin steps 1‥65535. -/
theorem gpfi_x_bounds (s : ℕ) (hs1 : 1 ≤ s) (hs2 : s ≤ 65535) :
    2442145240446091429 ≤ U128MAX / (ONE + s * 2 ^ 64 / 10000) ∧
    U128MAX / (ONE + s * 2 ^ 64 / 10000) ≤ 18444899583751176498 := by
  have hc1 : 1844674407370955 ≤ s * 2 ^ 64 / 10000 := by omega
  have hc2 : s * 2 ^ 64 / 10000 ≤ 120890737287055546515 := by omega
  constructor
  · have h5 : U128MAX / (ONE + 120890737287055546515) ≤
        U128MAX / (ONE + s * 2 ^ 64 / 10000) :=
      Nat.div_le_div_left (by unfold ONE; omega) (by unfold ONE; omega)
    have h6 : U128MAX / (ONE + 120890737287055546515) = 2442145240446091429 := by
      decide
    omega
  · have h5 : U128MAX / (ONE + s * 2 ^ 64 / 10000) ≤
        U128MAX / (ONE + 1844674407370955) :=
      Nat.div_le_div_left (by unfold ONE; omega) (by unfold ONE; omega)
    have h6 : U128MAX / (ONE + 1844674407370955) = 18444899583751176498 := by
      decide
    omega

/-- `get_price_from_id` on bin steps 1‥65535 and bin ids in `[-18, 18]`
always succeeds, returning `priceVal` of the normalised base. -/
theorem gpfi_eq_priceVal (s : ℕ) (hs1 : 1 ≤ s) (hs2 : s ≤ 65535) (b : ℤ)
    (hb1 : -18 ≤ b) (hb2 : b ≤ 18) :
    get_price_from_id b s =
      some (priceVal (U128MAX / (ONE + s * 2 ^ 64 / 10000)) b) := by
  obtain ⟨hx_lo, hx_hi⟩ := gpfi_x_bounds s hs1 hs2
  unfold get_price_from_id
  dsimp only
  rw [Nat.mod_eq_of_lt (by omega : s * 2 ^ 64 < 2 ^ 128),
    if_neg (by unfold ONE; omega)]
  set x := U128MAX / (ONE + s * 2 ^ 64 / 10000) with hxdef
  have hxlt : x < 2 ^ 64 := by omega
  have hkey := key_bound x hx_lo hx_hi
  unfold dlmmPow priceVal
  by_cases hb0 : b = 0
  · rw [if_pos hb0, if_pos hb0]
  · rw [if_neg hb0, if_neg (by omega : ¬ 524288 ≤ b.natAbs), if_neg hb0]
    dsimp only
    have hONEle : ONE ≤ ONE + s * 2 ^ 64 / 10000 := Nat.le_add_right _ _
    rw [if_pos hONEle, if_pos hONEle, ← hxdef]
    rw [dlmmLoop_eq_powFold 19 b.natAbs x ONE hxlt (le_of_eq rfl)]
    dsimp only
    rw [show ONE = (2 : ℕ) ^ 64 from rfl]
    have hpos := powFold_pos x b.natAbs hxlt hkey (by omega)
    rw [if_neg (by omega : ¬ powFold 19 b.natAbs x (2 ^ 64) = 0)]
    by_cases hbneg : b < 0
    · have hdec : decide (b < 0) = true := decide_eq_true hbneg
      rw [if_pos hbneg]
      simp [hdec]
    · have hdec : decide (b < 0) = false := decide_eq_false hbneg
      rw [if_neg hbneg]
      simp [hdec]

/-- Adjacent bin ids in `[-18, 18]` give strictly increasing `priceVal`. -/
theorem priceVal_adj (x : ℕ)
    (hx_lo : 2442145240446091429 ≤ x) (hx_hi : x ≤ 18444899583751176498)
    (b : ℤ) (hb1 : -18 ≤ b) (hb2 : b ≤ 17) :
    priceVal x b < priceVal x (b + 1) := by
  have hxlt : x < 2 ^ 64 := by omega
  have hxpos : 0 < x := by omega
  have hkey := key_bound x hx_lo hx_hi
  unfold priceVal
  rcases lt_trichotomy b (-1) with hlt | heq | hgt
  · rw [if_neg (by omega : ¬ b = 0), if_pos (by omega : b < 0),
      if_neg (by omega : ¬ b + 1 = 0), if_pos (by omega : b + 1 < 0)]
    have hna : b.natAbs = (b + 1).natAbs + 1 := by omega
    rw [hna]
    exact powFold_adj x (b + 1).natAbs hxlt hkey (by omega)
  · subst heq
    rw [if_neg (by omega : ¬ (-1 : ℤ) = 0), if_pos (by omega : (-1 : ℤ) < 0),
      if_pos (by omega : (-1 : ℤ) + 1 = 0)]
    have hna : ((-1 : ℤ)).natAbs = 1 := rfl
    rw [hna, powFold_one]
    unfold ONE
    omega
  · by_cases hb0 : b = 0
    · subst hb0
      rw [if_pos rfl, if_neg (by omega : ¬ (0 : ℤ) + 1 = 0),
        if_neg (by omega : ¬ (0 : ℤ) + 1 < 0)]
      have hna : ((0 : ℤ) + 1).natAbs = 1 := rfl
      rw [hna, powFold_one]
      have hchk : (2 ^ 64 + 1) * 18444899583751176498 ≤ U128MAX := by decide
      have hmul : (2 ^ 64 + 1) * x ≤ U128MAX :=
        le_trans (Nat.mul_le_mul_left _ hx_hi) hchk
      have : 2 ^ 64 + 1 ≤ U128MAX / x := (Nat.le_div_iff_mul_le hxpos).2 (by
        calc (2 ^ 64 + 1) * x ≤ U128MAX := hmul)
      unfold ONE
      omega
    · rw [if_neg hb0, if_neg (by omega : ¬ b < 0),
        if_neg (by omega : ¬ b + 1 = 0), if_neg (by omega : ¬ b + 1 < 0)]
      have hna : (b + 1).natAbs = b.natAbs + 1 := by omega
      rw [hna]
      have hb1le : 1 ≤ b.natAbs := by omega
      have hble : b.natAbs + 1 ≤ 18 := by omega
      have hadj := powFold_adj x b.natAbs hxlt hkey hble
      have hposs := powFold_pos x (b.natAbs + 1) hxlt hkey hble
      have hlts : powFold 19 b.natAbs x (2 ^ 64) < 2 ^ 64 :=
        powFold_lt_N x b.natAbs hxlt hb1le (by omega)
      have hlts2 : powFold 19 (b.natAbs + 1) x (2 ^ 64) < 2 ^ 64 :=
        powFold_lt_N x (b.natAbs + 1) hxlt (by omega) hble
      have hprod : powFold 19 (b.natAbs + 1) x (2 ^ 64) *
          powFold 19 b.natAbs x (2 ^ 64) ≤ U128MAX := by
        have hchk : (2 ^ 64 - 1) * (2 ^ 64 - 1) ≤ U128MAX := by decide
        exact le_trans (Nat.mul_le_mul (by omega) (by omega)) hchk
      exact div_lt_div_strict U128MAX _ _ hposs hadj hprod

/-- Chaining adjacent strict increases over the bin range. -/
theorem priceVal_chain (x : ℕ)
    (hx_lo : 2442145240446091429 ≤ x) (hx_hi : x ≤ 18444899583751176498) :
    ∀ (k : ℕ) (b : ℤ), -18 ≤ b → b + 1 + (k : ℤ) ≤ 18 →
      priceVal x b < priceVal x (b + 1 + (k : ℤ)) := by
  intro k
  induction k with
  | zero =>
    intro b hb1 hb2
    simpa using priceVal_adj x hx_lo hx_hi b hb1 (by omega)
  | succ n ih =>
    intro b hb1 hb2
    have hstep := priceVal_adj x hx_lo hx_hi (b + 1 + (n : ℤ)) (by omega) (by omega)
    have hprev := ih b hb1 (by omega)
    have he : b + 1 + ((n : ℤ) + 1) = (b + 1 + (n : ℤ)) + 1 := by ring
    push_cast
    rw [he]
    exact lt_trans hprev hstep

/-- Claim C8, amended. For every bin step in `1‥65535` and all bin ids
`b1 < b2` within the fixed-point power's valid exponent range `[-18, 18]`,
`get_price_from_id` succeeds on both and is strictly increasing.  (The
counterexample shows strictness fails for far-out bin ids, where the claim
as stated breaks.) -/
theorem c8_amended (s : ℕ) (hs1 : 1 ≤ s) (hs2 : s ≤ 65535)
    (b1 b2 : ℤ) (h1 : -18 ≤ b1) (h2 : b1 < b2) (h3 : b2 ≤ 18) :
    ∃ p1 p2, get_price_from_id b1 s = some p1 ∧
      get_price_from_id b2 s = some p2 ∧ p1 < p2 := by
  obtain ⟨hx_lo, hx_hi⟩ := gpfi_x_bounds s hs1 hs2
  refine ⟨priceVal (U128MAX / (ONE + s * 2 ^ 64 / 10000)) b1,
    priceVal (U128MAX / (ONE + s * 2 ^ 64 / 10000)) b2,
    gpfi_eq_priceVal s hs1 hs2 b1 (by omega) (by omega),
    gpfi_eq_priceVal s hs1 hs2 b2 (by omega) (by omega), ?_⟩
  have hk : b2 = b1 + 1 + (((b2 - b1 - 1).toNat : ℕ) : ℤ) := by omega
  rw [hk]
  exact priceVal_chain _ hx_lo hx_hi (b2 - b1 - 1).toNat b1 h1 (by omega)

/-- Witness for the amended C8: bin step 100, bins 1 < 2. -/
theorem c8_witness :
    ∃ p1 p2, get_price_from_id 1 100 = some p1 ∧
      get_price_from_id 2 100 = some p2 ∧ p1 < p2 :=
  c8_amended 100 (by omega) (by omega) 1 2 (by omega) (by omega) (by omega)

end FixedPow
